import Mathlib

/-!
Verification of the concurrent file-analysis pipeline (`main.go`, `analyze.go`).

The Go sources are shallowly embedded:
* file content is a `String`, file reading is a partial map `FS.read` from
  paths to `(content, size)` (`readFileContent`; a read error is `none`);
* Go `int`/`int64` values that appear here are counts and sizes, far below
  overflow, so they are embedded as `Int`;
* Go maps (`map[string]int`) are embedded as association lists with the
  update-or-append semantics of map assignment; equality of Go maps is
  extensional, so theorems about them characterise lookups;
* the goroutine structure (worker pools, per-file analyzer fan-out, channel
  pulls and pushes, `context` cancellation) is embedded as small-step
  transition relations over explicit states, with the nondeterminism of
  scheduling and of `select` kept as nondeterminism of the relation.
-/

namespace FileAnalysis

/-- `unicode.IsSpace` from the Go standard library: the Unicode White_Space
property, which `strings.Fields` uses to split content. -/
def goIsSpace (c : Char) : Bool :=
  let n := c.toNat
  n == 0x20 || (0x9 ≤ n && n ≤ 0xD) || n == 0x85 || n == 0xA0 ||
  n == 0x1680 || (0x2000 ≤ n && n ≤ 0x200A) || n == 0x2028 || n == 0x2029 ||
  n == 0x202F || n == 0x205F || n == 0x3000

/-- The non-ASCII entries of the simple lowercase mapping that
`unicode.ToLower` applies (the `unicode` package's case-range data, Unicode
14.0): an entry `(lo, hi, stride, delta)` maps each code point `lo,
lo+stride, …, hi` to itself plus `delta`.  Stride 2 encodes the package's
`UpperLower` ranges of alternating uppercase/lowercase letters. -/
def goLowerRanges : List (Nat × Nat × Nat × Int) := [
  (192, 214, 1, 32), (216, 222, 1, 32), (256, 302, 2, 1), (304, 304, 1, -199),
  (306, 310, 2, 1), (313, 327, 2, 1), (330, 374, 2, 1), (376, 376, 1, -121),
  (377, 381, 2, 1), (385, 385, 1, 210), (386, 388, 2, 1), (390, 390, 1, 206),
  (391, 391, 1, 1), (393, 394, 1, 205), (395, 395, 1, 1), (398, 398, 1, 79),
  (399, 399, 1, 202), (400, 400, 1, 203), (401, 401, 1, 1), (403, 403, 1, 205),
  (404, 404, 1, 207), (406, 406, 1, 211), (407, 407, 1, 209), (408, 408, 1, 1),
  (412, 412, 1, 211), (413, 413, 1, 213), (415, 415, 1, 214), (416, 420, 2, 1),
  (422, 422, 1, 218), (423, 423, 1, 1), (425, 425, 1, 218), (428, 428, 1, 1),
  (430, 430, 1, 218), (431, 431, 1, 1), (433, 434, 1, 217), (435, 437, 2, 1),
  (439, 439, 1, 219), (440, 440, 1, 1), (444, 444, 1, 1), (452, 452, 1, 2),
  (453, 453, 1, 1), (455, 455, 1, 2), (456, 456, 1, 1), (458, 458, 1, 2),
  (459, 475, 2, 1), (478, 494, 2, 1), (497, 497, 1, 2), (498, 500, 2, 1),
  (502, 502, 1, -97), (503, 503, 1, -56), (504, 542, 2, 1), (544, 544, 1, -130),
  (546, 562, 2, 1), (570, 570, 1, 10795), (571, 571, 1, 1), (573, 573, 1, -163),
  (574, 574, 1, 10792), (577, 577, 1, 1), (579, 579, 1, -195), (580, 580, 1, 69),
  (581, 581, 1, 71), (582, 590, 2, 1), (880, 882, 2, 1), (886, 886, 1, 1),
  (895, 895, 1, 116), (902, 902, 1, 38), (904, 906, 1, 37), (908, 908, 1, 64),
  (910, 911, 1, 63), (913, 929, 1, 32), (931, 939, 1, 32), (975, 975, 1, 8),
  (984, 1006, 2, 1), (1012, 1012, 1, -60), (1015, 1015, 1, 1), (1017, 1017, 1, -7),
  (1018, 1018, 1, 1), (1021, 1023, 1, -130), (1024, 1039, 1, 80), (1040, 1071, 1, 32),
  (1120, 1152, 2, 1), (1162, 1214, 2, 1), (1216, 1216, 1, 15), (1217, 1229, 2, 1),
  (1232, 1326, 2, 1), (1329, 1366, 1, 48), (4256, 4293, 1, 7264), (4295, 4295, 1, 7264),
  (4301, 4301, 1, 7264), (5024, 5103, 1, 38864), (5104, 5109, 1, 8), (7312, 7354, 1, -3008),
  (7357, 7359, 1, -3008), (7680, 7828, 2, 1), (7838, 7838, 1, -7615), (7840, 7934, 2, 1),
  (7944, 7951, 1, -8), (7960, 7965, 1, -8), (7976, 7983, 1, -8), (7992, 7999, 1, -8),
  (8008, 8013, 1, -8), (8025, 8031, 2, -8), (8040, 8047, 1, -8), (8072, 8079, 1, -8),
  (8088, 8095, 1, -8), (8104, 8111, 1, -8), (8120, 8121, 1, -8), (8122, 8123, 1, -74),
  (8124, 8124, 1, -9), (8136, 8139, 1, -86), (8140, 8140, 1, -9), (8152, 8153, 1, -8),
  (8154, 8155, 1, -100), (8168, 8169, 1, -8), (8170, 8171, 1, -112), (8172, 8172, 1, -7),
  (8184, 8185, 1, -128), (8186, 8187, 1, -126), (8188, 8188, 1, -9), (8486, 8486, 1, -7517),
  (8490, 8490, 1, -8383), (8491, 8491, 1, -8262), (8498, 8498, 1, 28), (8544, 8559, 1, 16),
  (8579, 8579, 1, 1), (9398, 9423, 1, 26), (11264, 11311, 1, 48), (11360, 11360, 1, 1),
  (11362, 11362, 1, -10743), (11363, 11363, 1, -3814), (11364, 11364, 1, -10727), (11367, 11371, 2, 1),
  (11373, 11373, 1, -10780), (11374, 11374, 1, -10749), (11375, 11375, 1, -10783), (11376, 11376, 1, -10782),
  (11378, 11378, 1, 1), (11381, 11381, 1, 1), (11390, 11391, 1, -10815), (11392, 11490, 2, 1),
  (11499, 11501, 2, 1), (11506, 11506, 1, 1), (42560, 42604, 2, 1), (42624, 42650, 2, 1),
  (42786, 42798, 2, 1), (42802, 42862, 2, 1), (42873, 42875, 2, 1), (42877, 42877, 1, -35332),
  (42878, 42886, 2, 1), (42891, 42891, 1, 1), (42893, 42893, 1, -42280), (42896, 42898, 2, 1),
  (42902, 42920, 2, 1), (42922, 42922, 1, -42308), (42923, 42923, 1, -42319), (42924, 42924, 1, -42315),
  (42925, 42925, 1, -42305), (42926, 42926, 1, -42308), (42928, 42928, 1, -42258), (42929, 42929, 1, -42282),
  (42930, 42930, 1, -42261), (42931, 42931, 1, 928), (42932, 42946, 2, 1), (42948, 42948, 1, -48),
  (42949, 42949, 1, -42307), (42950, 42950, 1, -35384), (42951, 42953, 2, 1), (42960, 42960, 1, 1),
  (42966, 42968, 2, 1), (42997, 42997, 1, 1), (65313, 65338, 1, 32), (66560, 66599, 1, 40),
  (66736, 66771, 1, 40), (66928, 66938, 1, 39), (66940, 66954, 1, 39), (66956, 66962, 1, 39),
  (66964, 66965, 1, 39), (68736, 68786, 1, 64), (71840, 71871, 1, 32), (93760, 93791, 1, 32),
  (125184, 125217, 1, 34)
]

/-- Case-range lookup of `unicode.To(LowerCase, r)` for a non-ASCII rune:
the matching range's delta is added; a rune in no range maps to itself. -/
def lookupLower (c : Nat) : List (Nat × Nat × Nat × Int) → Nat
  | [] => c
  | (lo, hi, stride, delta) :: rest =>
    if lo ≤ c ∧ c ≤ hi ∧ (c - lo) % stride = 0 then
      ((c : Int) + delta).toNat
    else lookupLower c rest

/-- `unicode.ToLower`, as `strings.ToLower` applies it to every rune: the
ASCII fast path lowers only A-Z; every other rune goes through the
case-range table. -/
def goToLowerChar (c : Char) : Char :=
  if c.toNat < 0x80 then
    if 'A' ≤ c ∧ c ≤ 'Z' then Char.ofNat (c.toNat + 32) else c
  else Char.ofNat (lookupLower c.toNat goLowerRanges)

/-- `strings.ToLower` on the embedded character level. -/
def goToLower (w : List Char) : List Char := w.map goToLowerChar

/-- Scan of `strings.Fields`: `cur` holds the (reversed) non-space run
being collected; a space flushes it, the end of input flushes the last
one. -/
def fieldsAux : List Char → List Char → List (List Char)
  | cur, [] => if cur = [] then [] else [cur.reverse]
  | cur, c :: rest =>
    if goIsSpace c then
      if cur = [] then fieldsAux [] rest else cur.reverse :: fieldsAux [] rest
    else fieldsAux (c :: cur) rest

/-- `strings.Fields`: split a character list around maximal runs of
whitespace, returning the non-empty maximal runs of non-space characters. -/
def fieldsList (l : List Char) : List (List Char) := fieldsAux [] l

/-- `strings.Fields` at the `String` level. -/
def goFields (s : String) : List String :=
  (fieldsList s.data).map List.asString

/-- `strings.Count content "\n"`: the pattern is a single character, so the
non-overlapping substring count is the character count. -/
def goCountNewlines (s : String) : Nat := s.data.count '\n'

/-- `AnalysisResult.Data`, the non-nil values of the Go `any` field: either a
Go `int` or a Go `map[string]int` (embedded as an association list). -/
inductive AnalysisData where
  | int (n : Int)
  | freq (m : List (String × Int))
deriving DecidableEq, Repr

/-- `AnalysisResult`: analyzer name plus its data; `none` embeds a nil
interface value (the zero value of `any`). -/
structure AnalysisResult where
  nameAnalyzer : String
  data : Option AnalysisData
deriving DecidableEq, Repr

/-- `FileAnalysisResult`: one file's name, size and the ordered outputs of
every analyzer run on it. -/
structure FileAnalysisResult where
  fileName : String
  size : Int
  results : List AnalysisResult
deriving DecidableEq, Repr

/-- The `Analyzer` interface: a name and a pure `Analyze` function over the
content. The three concrete analyzers below are its instances; theorems
quantified over analyzer lists range over arbitrary pure analyzers, as §4.1
of the design requires. -/
structure Analyzer where
  name : String
  analyze : String → AnalysisResult

/-- `WordCountAnalyzer.Analyze`: `len(strings.Fields(content))`. -/
def wordCountAnalyzer : Analyzer :=
  { name := "word_count"
    analyze := fun content =>
      { nameAnalyzer := "word_count"
        data := some (.int (goFields content).length) } }

/-- `LineCountAnalyzer.Analyze`: `strings.Count(content, "\n") + 1`. -/
def lineCountAnalyzer : Analyzer :=
  { name := "line_count"
    analyze := fun content =>
      { nameAnalyzer := "line_count"
        data := some (.int (goCountNewlines content + 1)) } }

/-- Go map assignment `freq[k]++` on the association-list embedding: bump an
existing binding, or append a new binding with count 1 (zero value plus one). -/
def bumpFreq : List (String × Int) → String → List (String × Int)
  | [], k => [(k, 1)]
  | (k', v) :: rest, k =>
    if k' = k then (k', v + 1) :: rest else (k', v) :: bumpFreq rest k

/-- Reading `m[k]` from a Go map: the stored value, or the zero value 0. -/
def lookupFreq : List (String × Int) → String → Int
  | [], _ => 0
  | (k', v) :: rest, k => if k' = k then v else lookupFreq rest k

/-- The loop body of `MostFrequentWordsAnalyzer.Analyze`: for each field,
`freq[strings.ToLower(word)]++`. -/
def wordFreq (content : String) : List (String × Int) :=
  (goFields content).foldl (fun m w => bumpFreq m (goToLower w.data).asString) []

/-- `MostFrequentWordsAnalyzer.Analyze`. -/
def mostFrequentWordsAnalyzer : Analyzer :=
  { name := "most_frequent_words"
    analyze := fun content =>
      { nameAnalyzer := "most_frequent_words"
        data := some (.freq (wordFreq content)) } }

/-- Helper for `specTokenCount`: counts the characters that start a token,
i.e. the non-whitespace characters whose predecessor (if any) is
whitespace; `afterSpace` says whether the previous character was whitespace
(true at the start of the content). -/
def specTokenCountAux : Bool → List Char → Nat
  | _, [] => 0
  | afterSpace, c :: rest =>
    (if afterSpace && !goIsSpace c then 1 else 0) +
      specTokenCountAux (goIsSpace c) rest

/-- Following the spec's words for the word-count claim: "the number of
non-empty tokens obtained by splitting the content on whitespace runs",
counted directly as the number of maximal runs of non-whitespace
characters.  Stated independently of `fieldsList` so the analyzer can be
compared against it. -/
def specTokenCount (l : List Char) : Nat := specTokenCountAux true l

/-- The file-reading collaborator (`readFileContent`): a path yields content
and size, or `none` for a read error. -/
structure FS where
  read : String → Option (String × Int)

/-- `filepath.Base`: strip trailing separators, keep the last path element;
`""` gives `"."` and an all-separator path gives `"/"`. -/
def goBaseName (p : String) : String :=
  if p = "" then "."
  else
    let stripped := (p.data.reverse.dropWhile (fun c => c == '/')).reverse
    let base := (stripped.reverse.takeWhile (fun c => c != '/')).reverse
    if base = [] then "/" else base.asString

/-- The zero value of `AnalysisResult`, as produced by
`make([]AnalysisResult, len(analyzers))`. -/
def zeroResult : AnalysisResult := ⟨"", none⟩

/-- One per-analyzer goroutine of the engine: task `i` writes
`analyzers[i].Analyze(content)` into its fixed slot `i` of the shared
result slice. -/
def writeSlot (as : List Analyzer) (content : String) (arr : List AnalysisResult)
    (i : Nat) : List AnalysisResult :=
  match as[i]? with
  | some a => arr.set i (a.analyze content)
  | none => arr

/-- The engine's fan-out under a scheduler: the per-analyzer tasks complete
in the order given by `order`; each writes only its own slot, and the
`swg.Wait()` join makes the final slice the value after all writes. -/
def runAnalyzerTasks (as : List Analyzer) (content : String)
    (order : List Nat) : List AnalysisResult :=
  order.foldl (writeSlot as content) (List.replicate as.length zeroResult)

/-- The joined engine output: slot `i` holds analyzer `i`'s result.  Both
engines produce this list (the sequential one by appending in analyzer
order, the concurrent one by the fixed-slot writes of `runAnalyzerTasks`). -/
def analyzeOne (content : String) (as : List Analyzer) : List AnalysisResult :=
  as.map (fun a => a.analyze content)

/-- The per-path body shared by every worker and by the sequential loop:
read the file (`none` on error means the file is skipped) and build the
bundle `{filepath.Base(path), size, engine output}`. -/
def processFile (fs : FS) (as : List Analyzer) (path : String) :
    Option FileAnalysisResult :=
  match fs.read path with
  | none => none
  | some (content, size) => some ⟨goBaseName path, size, analyzeOne content as⟩

/-- `AnalyzeSequential`'s loop: files one at a time in input order; a read
error skips the file (`continue`) and the loop proceeds with the rest. -/
def analyzeSequentialGo (fs : FS) (as : List Analyzer) :
    List String → List FileAnalysisResult
  | [] => []
  | path :: rest =>
    match fs.read path with
    | none => analyzeSequentialGo fs as rest
    | some (content, size) =>
      ⟨goBaseName path, size, analyzeOne content as⟩ :: analyzeSequentialGo fs as rest

/-- `AnalyzeSequential`: the accumulated results and the error value of the
`return results, nil` statement. -/
def AnalyzeSequential (fs : FS) (files : List String) (as : List Analyzer) :
    List FileAnalysisResult × Option String :=
  (analyzeSequentialGo fs as files, none)

/-! ### The `AnalyzeParallel` worker pool as a transition system

`AnalyzeParallel` feeds every file path into the `filePaths` channel in
order and closes it; `workers` goroutines range over the channel, process
each received path and send the bundle to `results`; `results` is closed
after `wg.Wait()`, and the caller collects it to exhaustion.  The state
keeps the paths not yet pulled by any worker (feeder plus channel buffer:
workers pull them in order, one receiver per value), each worker's phase,
and the collected output. -/

/-- Phase of one pool worker: waiting on `filePaths`, holding a processed
path whose bundle is pending the `results` send (`none` after a failed
read, which the worker skips), or returned. -/
inductive WPhase where
  | idle
  | busy (pending : Option FileAnalysisResult)
  | exited
deriving DecidableEq, Repr

/-- State of the `AnalyzeParallel` pool. -/
structure PoolState where
  queue : List String
  workers : List WPhase
  emitted : List FileAnalysisResult
deriving DecidableEq, Repr

/-- Interleaved execution of the pool: any worker may pull the next path
and run the read-plus-engine body on it, deliver its pending bundle to the
collector, skip a failed read, or return once the channel is exhausted. -/
inductive PoolStep (fs : FS) (as : List Analyzer) : PoolState → PoolState → Prop
  | take (p : String) (rest : List String) (l r : List WPhase)
      (em : List FileAnalysisResult) :
      PoolStep fs as ⟨p :: rest, l ++ .idle :: r, em⟩
        ⟨rest, l ++ .busy (processFile fs as p) :: r, em⟩
  | push (b : FileAnalysisResult) (q : List String) (l r : List WPhase)
      (em : List FileAnalysisResult) :
      PoolStep fs as ⟨q, l ++ .busy (some b) :: r, em⟩
        ⟨q, l ++ .idle :: r, em ++ [b]⟩
  | skip (q : List String) (l r : List WPhase) (em : List FileAnalysisResult) :
      PoolStep fs as ⟨q, l ++ .busy none :: r, em⟩ ⟨q, l ++ .idle :: r, em⟩
  | exit (l r : List WPhase) (em : List FileAnalysisResult) :
      PoolStep fs as ⟨[], l ++ .idle :: r, em⟩ ⟨[], l ++ .exited :: r, em⟩

/-- The pool as started by `AnalyzeParallel(files, analyzers, workers)`. -/
def initPool (files : List String) (w : Nat) : PoolState :=
  ⟨files, List.replicate w .idle, []⟩

/-- Executions of the pool: reflexive-transitive closure of `PoolStep`. -/
def PoolReaches (fs : FS) (as : List Analyzer) : PoolState → PoolState → Prop :=
  Relation.ReflTransGen (PoolStep fs as)

/-- Every worker has returned, so `wg.Wait()` has passed, `results` is
closed, and the collection loop has ended. -/
def AllExited (s : PoolState) : Prop := ∀ ph ∈ s.workers, ph = WPhase.exited

/-- The value `AnalyzeParallel` returns once the pool has terminated:
`return out, nil`. -/
def analyzeParallelReturn (s : PoolState) :
    List FileAnalysisResult × Option String :=
  (s.emitted, none)

/-- The bundle a worker still has to deliver, if any. -/
def pendingOf : WPhase → Option FileAnalysisResult
  | .busy (some b) => some b
  | _ => none

/-- The bundles still inside the pool's workers, awaiting their send. -/
def pendList (ws : List WPhase) : List FileAnalysisResult :=
  ws.filterMap pendingOf

/-- Conservation invariant of the pool: the collected bundles, the bundles
held by workers, and the bundles the unpulled paths will yield add up (as a
multiset) to the bundles of the whole file list; and a worker only returns
after the path channel is exhausted. -/
def PoolInv (fs : FS) (as : List Analyzer) (files : List String)
    (s : PoolState) : Prop :=
  ((s.emitted : Multiset FileAnalysisResult) + ↑(pendList s.workers) +
      ↑(s.queue.filterMap (processFile fs as)) =
    ↑(files.filterMap (processFile fs as))) ∧
  (WPhase.exited ∈ s.workers → s.queue = [])

/-! ### The interactive worker of `main` under cancellation

The worker goroutine of `main` loops on a `select` over `ctx.Done()` and
`filePaths`; after a successful read it runs the engine to completion and
then delivers the bundle with a plain (unguarded) `results <-` send.  The
state records whether `cancel()` has run, the paths still to be received,
whether `filePaths` is closed, the worker's position in its loop body, and
what it has sent. -/

/-- Position of the interactive worker inside its loop. -/
inductive CtxPhase where
  | pull
  | reading (path : String)
  | pushing (b : FileAnalysisResult)
  | exited
deriving DecidableEq, Repr

/-- State of one interactive worker together with the cancellation flag and
its input channel. -/
structure CtxWorkerState where
  cancelled : Bool
  queue : List String
  closed : Bool
  phase : CtxPhase
  emitted : List FileAnalysisResult
deriving DecidableEq, Repr

/-- Steps of the interactive worker.  At `pull` the `select` may commit to
`<-ctx.Done()` (only when cancelled) or to receiving from `filePaths`; the
read and the engine run with no cancellation check; the `results <-` send
has no `select` around it, so its only step is the delivery itself.  The
interrupt may fire at any moment (`signalFires`). -/
inductive CtxWorkerStep (fs : FS) (as : List Analyzer) :
    CtxWorkerState → CtxWorkerState → Prop
  | cancelAtPull (c : Bool) (q : List String) (cl : Bool)
      (em : List FileAnalysisResult) :
      CtxWorkerStep fs as ⟨true, q, cl, .pull, em⟩ ⟨true, q, cl, .exited, em⟩
  | pullPath (c : Bool) (p : String) (rest : List String) (cl : Bool)
      (em : List FileAnalysisResult) :
      CtxWorkerStep fs as ⟨c, p :: rest, cl, .pull, em⟩
        ⟨c, rest, cl, .reading p, em⟩
  | pullClosed (c : Bool) (em : List FileAnalysisResult) :
      CtxWorkerStep fs as ⟨c, [], true, .pull, em⟩ ⟨c, [], true, .exited, em⟩
  | readFail (c : Bool) (p : String) (q : List String) (cl : Bool)
      (em : List FileAnalysisResult) (h : fs.read p = none) :
      CtxWorkerStep fs as ⟨c, q, cl, .reading p, em⟩ ⟨c, q, cl, .pull, em⟩
  | readOk (c : Bool) (p : String) (q : List String) (cl : Bool)
      (em : List FileAnalysisResult) (content : String) (size : Int)
      (h : fs.read p = some (content, size)) :
      CtxWorkerStep fs as ⟨c, q, cl, .reading p, em⟩
        ⟨c, q, cl, .pushing ⟨goBaseName p, size, analyzeOne content as⟩, em⟩
  | pushResult (c : Bool) (b : FileAnalysisResult) (q : List String) (cl : Bool)
      (em : List FileAnalysisResult) :
      CtxWorkerStep fs as ⟨c, q, cl, .pushing b, em⟩
        ⟨c, q, cl, .pull, em ++ [b]⟩
  | signalFires (q : List String) (cl : Bool) (ph : CtxPhase)
      (em : List FileAnalysisResult) :
      CtxWorkerStep fs as ⟨false, q, cl, ph, em⟩ ⟨true, q, cl, ph, em⟩

/-! ### Filter stage and aggregator of `main` -/

/-- The filter loop over one bundle's results: `show` turns false (and the
loop breaks) at a `word_count` entry whose asserted `int` is below 2.  The
type assertion `r.Data.(int)` is modelled only for `int` data; a
`word_count` entry with other data (on which Go would panic, a case no
engine-produced bundle exhibits) is passed over. -/
def bundleShow : List AnalysisResult → Bool
  | [] => true
  | r :: rest =>
    if r.nameAnalyzer = "word_count" then
      match r.data with
      | some (.int n) => if n < 2 then false else bundleShow rest
      | _ => bundleShow rest
    else bundleShow rest

/-- The filter stage: forward, in order received, exactly the bundles on
which `show` stays true. -/
def filterStage (bundles : List FileAnalysisResult) : List FileAnalysisResult :=
  bundles.filter (fun res => bundleShow res.results)

/-- Go map update `globalMap[word] += count` on the association-list
embedding. -/
def bumpFreqBy : List (String × Int) → String → Int → List (String × Int)
  | [], k, v => [(k, v)]
  | (k', v') :: rest, k, v =>
    if k' = k then (k', v' + v) :: rest else (k', v') :: bumpFreqBy rest k v

/-- The aggregator's merge of one file's frequency map into the global one:
`for word, count := range freq { globalMap[word] += count }` (Go iterates
the map in arbitrary order; lookups of the result are order-independent). -/
def addFreq (g m : List (String × Int)) : List (String × Int) :=
  m.foldl (fun g' kv => bumpFreqBy g' kv.1 kv.2) g

/-- Total count carried by key `w` in a frequency map (sums every entry for
`w`, so it is meaningful whatever the entry order). -/
def sumCounts (m : List (String × Int)) (w : String) : Int :=
  (m.map (fun kv => if kv.1 = w then kv.2 else 0)).sum

/-- The aggregation state owned by the collection loop of `main`. -/
structure AggState where
  totalWords : Int
  totalLines : Int
  globalMap : List (String × Int)
deriving DecidableEq, Repr

/-- The `switch res.NameAnalyzer` body of the collection loop.  The type
assertions are modelled on the data the engine actually produces; a name
carrying mismatched data (a Go panic, never produced) is skipped. -/
def processResult (st : AggState) (r : AnalysisResult) : AggState :=
  match r.nameAnalyzer, r.data with
  | "word_count", some (.int n) => { st with totalWords := st.totalWords + n }
  | "line_count", some (.int n) => { st with totalLines := st.totalLines + n }
  | "most_frequent_words", some (.freq m) =>
      { st with globalMap := addFreq st.globalMap m }
  | _, _ => st

/-- The collection loop: consume the filtered bundles to exhaustion,
folding every result of every bundle into the aggregation state. -/
def aggregate (bundles : List FileAnalysisResult) : AggState :=
  bundles.foldl (fun st res => res.results.foldl processResult st) ⟨0, 0, []⟩

/-- The top-N report of `main`: the `words` slice collects the entries of
`globalMap` in arbitrary map-iteration order, `sort.Slice` (unstable, so
ties land in arbitrary order) sorts it by descending count, and the first
`min(topWords, len(words))` entries are reported. -/
def IsTopNReport (n : Nat) (g report : List (String × Int)) : Prop :=
  ∃ words : List (String × Int), words.Perm g ∧
    words.Sorted (fun a b => b.2 ≤ a.2) ∧
    report = words.take (min n words.length)

/-! ## Tokenisation lemmas -/

theorem fieldsAux_length_spec :
    ∀ l : List Char,
      (fieldsAux [] l).length = specTokenCountAux true l ∧
      ∀ cur : List Char, cur ≠ [] →
        (fieldsAux cur l).length = specTokenCountAux false l + 1 := by
  intro l
  induction l with
  | nil =>
    refine ⟨by simp [fieldsAux, specTokenCountAux], ?_⟩
    intro cur hcur
    simp [fieldsAux, hcur, specTokenCountAux]
  | cons c rest ih =>
    by_cases hc : goIsSpace c
    · refine ⟨?_, ?_⟩
      · simp [fieldsAux, hc, specTokenCountAux, ih.1]
      · intro cur hcur
        simp [fieldsAux, hc, hcur, specTokenCountAux, ih.1]
    · have hc' : goIsSpace c = false := by simpa using hc
      refine ⟨?_, ?_⟩
      · simp only [fieldsAux, hc', Bool.false_eq_true, if_false]
        rw [ih.2 [c] (by simp)]
        simp [specTokenCountAux, hc', Nat.add_comm]
      · intro cur hcur
        simp only [fieldsAux, hc', Bool.false_eq_true, if_false]
        rw [ih.2 (c :: cur) (by simp)]
        simp [specTokenCountAux, hc']

theorem fieldsAux_tokens :
    ∀ (l cur : List Char), (∀ c ∈ cur, goIsSpace c = false) →
      ∀ t ∈ fieldsAux cur l, t ≠ [] ∧ ∀ c ∈ t, goIsSpace c = false := by
  intro l
  induction l with
  | nil =>
    intro cur hcur t ht
    by_cases h : cur = []
    · simp [fieldsAux, h] at ht
    · simp only [fieldsAux, h, if_false] at ht
      simp only [List.mem_singleton] at ht
      subst ht
      refine ⟨by simpa using h, ?_⟩
      intro c hc
      exact hcur c (List.mem_reverse.mp hc)
  | cons c rest ih =>
    intro cur hcur t ht
    by_cases hc : goIsSpace c
    · by_cases h : cur = []
      · simp only [fieldsAux, hc, if_true, h, if_pos rfl] at ht
        exact ih [] (by simp) t ht
      · simp only [fieldsAux, hc, if_true, h, if_false] at ht
        rcases List.mem_cons.mp ht with rfl | ht'
        · refine ⟨by simpa using h, ?_⟩
          intro d hd
          exact hcur d (List.mem_reverse.mp hd)
        · exact ih [] (by simp) t ht'
    · have hc' : goIsSpace c = false := by simpa using hc
      simp only [fieldsAux, hc', Bool.false_eq_true, if_false] at ht
      refine ih (c :: cur) ?_ t ht
      intro d hd
      rcases List.mem_cons.mp hd with rfl | hd'
      · exact hc'
      · exact hcur d hd'

/-! ## Frequency-map lemmas -/

theorem lookupFreq_bumpFreq (m : List (String × Int)) (k w : String) :
    lookupFreq (bumpFreq m k) w =
      lookupFreq m w + (if k = w then 1 else 0) := by
  induction m with
  | nil =>
    by_cases hw : k = w <;> simp [bumpFreq, lookupFreq, hw]
  | cons kv rest ih =>
    obtain ⟨k', v'⟩ := kv
    by_cases hk : k' = k
    · subst hk
      by_cases hw : k' = w <;> simp [bumpFreq, lookupFreq, hw]
    · by_cases hw : k' = w
      · subst hw
        have hkw : ¬k = k' := fun h => hk h.symm
        simp [bumpFreq, lookupFreq, hk, hkw]
      · simp [bumpFreq, lookupFreq, hk, hw, ih]

theorem lookupFreq_foldl_bumpFreq (ws : List String)
    (m : List (String × Int)) (w : String) :
    lookupFreq (ws.foldl bumpFreq m) w = lookupFreq m w + (ws.count w : Int) := by
  induction ws generalizing m with
  | nil => simp
  | cons w' ws ih =>
    rw [List.foldl_cons, ih, lookupFreq_bumpFreq, List.count_cons]
    by_cases hw : w' = w
    · subst hw
      simp
      ring
    · have hw' : ¬w = w' := fun h => hw h.symm
      simp [hw, hw']

theorem lookupFreq_wordFreq (content w : String) :
    lookupFreq (wordFreq content) w =
      (((goFields content).map
        (fun t => (goToLower t.data).asString)).count w : Int) := by
  have hfold : wordFreq content =
      ((goFields content).map
        (fun t => (goToLower t.data).asString)).foldl bumpFreq [] := by
    rw [List.foldl_map]; rfl
  rw [hfold, lookupFreq_foldl_bumpFreq]
  simp [lookupFreq]

/-! ## Claim theorems: the three analyzers -/

/-- C6: for every content string, the WordCount analyzer returns the number
of non-empty tokens obtained by splitting the content on whitespace runs —
its count equals the direct count of maximal non-whitespace runs
(`specTokenCount`), and every token produced by the split is non-empty and
whitespace-free; in particular the count on "hello world\nhello go" is 4. -/
theorem wordCount_counts_whitespace_tokens :
    (∀ content : String, wordCountAnalyzer.analyze content =
      ⟨"word_count", some (.int (specTokenCount content.data))⟩) ∧
    (∀ (l : List Char), ∀ t ∈ fieldsList l,
      t ≠ [] ∧ ∀ c ∈ t, goIsSpace c = false) ∧
    wordCountAnalyzer.analyze "hello world\nhello go" =
      ⟨"word_count", some (.int 4)⟩ := by
  refine ⟨fun content => ?_, fun l => fieldsAux_tokens l [] (by simp), by decide⟩
  have h := (fieldsAux_length_spec content.data).1
  simp [wordCountAnalyzer, goFields, specTokenCount, fieldsList, ← h]

/-- Witness for C6: a concrete token produced by splitting is non-empty and
whitespace-free. -/
theorem wordCount_counts_whitespace_tokens_witness :
    "ab".data ≠ [] ∧ ∀ c ∈ "ab".data, goIsSpace c = false :=
  wordCount_counts_whitespace_tokens.2.1 "ab cd".data "ab".data (by decide)

/-- C7: for every content string, the LineCount analyzer returns the number
of newline characters plus 1, which is at least 1 even for empty content;
in particular LineCount("") = 1. -/
theorem lineCount_newlines_plus_one :
    (∀ content : String, lineCountAnalyzer.analyze content =
      ⟨"line_count", some (.int ((content.data.count '\n' : Int) + 1))⟩) ∧
    (∀ content : String,
      1 ≤ ((content.data.count '\n' : Int) + 1)) ∧
    lineCountAnalyzer.analyze "" = ⟨"line_count", some (.int 1)⟩ := by
  refine ⟨fun content => ?_, fun content => by omega, by decide⟩
  simp [lineCountAnalyzer, goCountNewlines]

/-- C8: for every content string, the WordFrequency analyzer returns a map
whose value at any word `w` is the number of lower-cased (by the full
Unicode simple mapping of `strings.ToLower`) whitespace-delimited tokens of
the content equal to `w`; in particular WordFrequency("Hello hello WORLD")
= {"hello": 2, "world": 1}, and case-insensitivity extends beyond ASCII:
WordFrequency("Ä ä") = {"ä": 2}. -/
theorem wordFrequency_counts_lowercased_tokens :
    (∀ content : String, mostFrequentWordsAnalyzer.analyze content =
      ⟨"most_frequent_words", some (.freq (wordFreq content))⟩) ∧
    (∀ content w : String,
      lookupFreq (wordFreq content) w =
        (((goFields content).map
          (fun t => (goToLower t.data).asString)).count w : Int)) ∧
    wordFreq "Hello hello WORLD" = [("hello", 2), ("world", 1)] ∧
    wordFreq "Ä ä" = [("ä", 2)] := by
  exact ⟨fun _ => rfl, lookupFreq_wordFreq, by decide, by decide⟩

/-! ## Sequential analysis: ordering and error handling -/

theorem analyzeSequentialGo_eq_filterMap (fs : FS) (as : List Analyzer)
    (files : List String) :
    analyzeSequentialGo fs as files = files.filterMap (processFile fs as) := by
  induction files with
  | nil => rfl
  | cons p rest ih =>
    rw [List.filterMap_cons]
    cases h : fs.read p with
    | none => simpa [analyzeSequentialGo, h, processFile] using ih
    | some cs =>
      obtain ⟨c, sz⟩ := cs
      simpa [analyzeSequentialGo, h, processFile] using ih

/-- C9: `AnalyzeSequential` processes the files one at a time in input
order: its output is exactly the input list filtered-and-mapped through the
per-file body, so it is ordered by the input file order; a file whose read
errors produces no bundle (it is skipped, `continue`) while every readable
file produces its bundle. -/
theorem analyzeSequential_ordered_skips_errors :
    (∀ (fs : FS) (as : List Analyzer) (files : List String),
      (AnalyzeSequential fs files as).1 = files.filterMap (processFile fs as)) ∧
    (∀ (fs : FS) (as : List Analyzer) (p : String),
      processFile fs as p = none ↔ fs.read p = none) ∧
    (∀ (fs : FS) (as : List Analyzer) (p content : String) (size : Int),
      fs.read p = some (content, size) →
      processFile fs as p = some ⟨goBaseName p, size, analyzeOne content as⟩) := by
  refine ⟨fun fs as files => analyzeSequentialGo_eq_filterMap fs as files,
    fun fs as p => ?_,
    fun fs as p content size h => by simp [processFile, h]⟩
  · unfold processFile
    cases h : fs.read p with
    | none => simp
    | some cs => obtain ⟨c, sz⟩ := cs; simp

/-- Witness for C9 at a concrete filesystem: the middle file's read fails
and is skipped, the readable files appear in order. -/
theorem analyzeSequential_ordered_skips_errors_witness :
    processFile ⟨fun p => if p = "b.txt" then none else some ("x y", 3)⟩
      [wordCountAnalyzer] "a.txt" =
      some ⟨goBaseName "a.txt", 3, analyzeOne "x y" [wordCountAnalyzer]⟩ := by
  exact analyzeSequential_ordered_skips_errors.2.2
    ⟨fun p => if p = "b.txt" then none else some ("x y", 3)⟩
    [wordCountAnalyzer] "a.txt" "x y" 3 (by decide)

/-- C10: both `AnalyzeSequential` and `AnalyzeParallel` end in
`return …, nil`, so the error value is `none` for every input and every
pool outcome — even when every file read fails, as the concrete run with an
always-failing filesystem shows. -/
theorem analyze_error_always_nil :
    (∀ (fs : FS) (files : List String) (as : List Analyzer),
      (AnalyzeSequential fs files as).2 = none) ∧
    (∀ s : PoolState, (analyzeParallelReturn s).2 = none) ∧
    AnalyzeSequential ⟨fun _ => none⟩ ["a.txt", "b.txt"]
      [wordCountAnalyzer, lineCountAnalyzer, mostFrequentWordsAnalyzer] =
      ([], none) := by
  exact ⟨fun _ _ _ => rfl, fun _ => rfl, rfl⟩

/-! ## Filter stage -/

theorem bundleShow_eq_true_iff (rs : List AnalysisResult) :
    bundleShow rs = true ↔
      ∀ r ∈ rs, r.nameAnalyzer = "word_count" →
        ∀ n : Int, r.data = some (.int n) → 2 ≤ n := by
  induction rs with
  | nil => simp [bundleShow]
  | cons r rest ih =>
    have step : bundleShow (r :: rest) =
        if r.nameAnalyzer = "word_count" then
          match r.data with
          | some (.int n) => if n < 2 then false else bundleShow rest
          | _ => bundleShow rest
        else bundleShow rest := rfl
    by_cases hname : r.nameAnalyzer = "word_count"
    · rw [step, if_pos hname]
      cases hdata : r.data with
      | none =>
        show bundleShow rest = true ↔ _
        rw [ih, List.forall_mem_cons]
        have hP : r.nameAnalyzer = "word_count" →
            ∀ n : Int, r.data = some (.int n) → 2 ≤ n := by
          intro _ n hn
          rw [hdata] at hn
          exact Option.noConfusion hn
        exact ⟨fun h => ⟨hP, h⟩, fun h => h.2⟩
      | some d =>
        cases d with
        | int n =>
          show (if n < 2 then false else bundleShow rest) = true ↔ _
          by_cases hn : n < 2
          · rw [if_pos hn]
            refine iff_of_false (by simp) (fun h => ?_)
            have := h r (List.mem_cons_self r rest) hname n hdata
            omega
          · rw [if_neg hn, ih, List.forall_mem_cons]
            have hP : r.nameAnalyzer = "word_count" →
                ∀ n' : Int, r.data = some (.int n') → 2 ≤ n' := by
              intro _ n' hn'
              rw [hdata] at hn'
              obtain rfl : n = n' := AnalysisData.int.inj (Option.some.inj hn')
              omega
            exact ⟨fun h => ⟨hP, h⟩, fun h => h.2⟩
        | freq m =>
          show bundleShow rest = true ↔ _
          rw [ih, List.forall_mem_cons]
          have hP : r.nameAnalyzer = "word_count" →
              ∀ n : Int, r.data = some (.int n) → 2 ≤ n := by
            intro _ n hn
            rw [hdata] at hn
            exact AnalysisData.noConfusion (Option.some.inj hn)
          exact ⟨fun h => ⟨hP, h⟩, fun h => h.2⟩
    · rw [step, if_neg hname, ih, List.forall_mem_cons]
      have hP : r.nameAnalyzer = "word_count" →
          ∀ n : Int, r.data = some (.int n) → 2 ≤ n := by
        intro hn
        exact absurd hn hname
      exact ⟨fun h => ⟨hP, h⟩, fun h => h.2⟩

/-- C4: the filter stage forwards, in the order received, exactly the
bundles whose WordCount result is at least 2: on bundles carrying a
`word_count` value `wc res`, the stage equals a filter by `2 ≤ wc res`; on
the three bundles with word counts [1, 2, 5] exactly the ones with counts
[2, 5] pass, in that order. -/
theorem filterStage_wordcount_threshold :
    (∀ (bundles : List FileAnalysisResult) (wc : FileAnalysisResult → Int),
      (∀ res ∈ bundles,
        (∃ r ∈ res.results, r.nameAnalyzer = "word_count") ∧
        (∀ r ∈ res.results, r.nameAnalyzer = "word_count" →
          r.data = some (.int (wc res)))) →
      filterStage bundles = bundles.filter (fun res => decide (2 ≤ wc res))) ∧
    filterStage
      [⟨"one.txt", 10, [⟨"word_count", some (.int 1)⟩]⟩,
       ⟨"two.txt", 11, [⟨"word_count", some (.int 2)⟩]⟩,
       ⟨"five.txt", 12, [⟨"word_count", some (.int 5)⟩]⟩] =
      [⟨"two.txt", 11, [⟨"word_count", some (.int 2)⟩]⟩,
       ⟨"five.txt", 12, [⟨"word_count", some (.int 5)⟩]⟩] := by
  constructor
  · intro bundles wc h
    apply List.filter_congr
    intro res hres
    obtain ⟨⟨r₀, hr₀, hr₀name⟩, hall⟩ := h res hres
    by_cases hwc : 2 ≤ wc res
    · have : bundleShow res.results = true := by
        rw [bundleShow_eq_true_iff]
        intro r hr hname n hn
        have := hall r hr hname
        rw [this] at hn
        have : wc res = n := AnalysisData.int.inj (Option.some.inj hn)
        omega
      simp [this, hwc]
    · have : ¬bundleShow res.results = true := by
        rw [bundleShow_eq_true_iff]
        intro h'
        have := h' r₀ hr₀ hr₀name (wc res) (hall r₀ hr₀ hr₀name)
        omega
      simp only [Bool.not_eq_true] at this
      simp [this, hwc]
  · decide

/-- Witness for C4: the general filter characterisation applied to the
concrete [1, 2, 5] bundles. -/
theorem filterStage_wordcount_threshold_witness :
    filterStage
      [⟨"one.txt", 10, [⟨"word_count", some (.int 1)⟩]⟩,
       ⟨"two.txt", 11, [⟨"word_count", some (.int 2)⟩]⟩,
       ⟨"five.txt", 14, [⟨"word_count", some (.int 5)⟩]⟩] =
      List.filter (fun res => decide (2 ≤ res.size - 9))
        [⟨"one.txt", 10, [⟨"word_count", some (.int 1)⟩]⟩,
         ⟨"two.txt", 11, [⟨"word_count", some (.int 2)⟩]⟩,
         ⟨"five.txt", 14, [⟨"word_count", some (.int 5)⟩]⟩] := by
  exact filterStage_wordcount_threshold.1 _ (fun res => res.size - 9)
    (by decide)

/-! ## Aggregator -/

theorem lookupFreq_bumpFreqBy (m : List (String × Int)) (k : String)
    (v : Int) (w : String) :
    lookupFreq (bumpFreqBy m k v) w =
      lookupFreq m w + (if k = w then v else 0) := by
  induction m with
  | nil =>
    by_cases hw : k = w <;> simp [bumpFreqBy, lookupFreq, hw]
  | cons kv rest ih =>
    obtain ⟨k', v'⟩ := kv
    by_cases hk : k' = k
    · subst hk
      by_cases hw : k' = w <;> simp [bumpFreqBy, lookupFreq, hw]
    · by_cases hw : k' = w
      · subst hw
        have hkw : ¬k = k' := fun h => hk h.symm
        simp [bumpFreqBy, lookupFreq, hk, hkw]
      · simp [bumpFreqBy, lookupFreq, hk, hw, ih]

theorem lookupFreq_addFreq (g m : List (String × Int)) (w : String) :
    lookupFreq (addFreq g m) w = lookupFreq g w + sumCounts m w := by
  induction m generalizing g with
  | nil => simp [addFreq, sumCounts]
  | cons kv rest ih =>
    obtain ⟨k, v⟩ := kv
    show lookupFreq (addFreq (bumpFreqBy g k v) rest) w = _
    rw [ih, lookupFreq_bumpFreqBy]
    simp [sumCounts]
    ring

theorem perm_pair {α : Type _} {l : List α} {a b : α} (h : l.Perm [a, b]) :
    l = [a, b] ∨ l = [b, a] := by
  have hlen := h.length_eq
  simp only [List.length_cons, List.length_nil] at hlen
  obtain ⟨x, y, hl⟩ : ∃ x y, l = [x, y] := by
    cases l with
    | nil => simp at hlen
    | cons x l' =>
      cases l' with
      | nil => simp at hlen
      | cons y l'' =>
        cases l'' with
        | nil => exact ⟨x, y, rfl⟩
        | cons z l3 => simp at hlen
  subst hl
  have hx : x = a ∨ x = b := by
    have hmem : x ∈ [a, b] := h.subset (by simp)
    simpa using hmem
  rcases hx with rfl | rfl
  · have hy : y = b := by
      have hmem : y ∈ [b] := (h.cons_inv).subset (by simp)
      simpa using hmem
    subst hy
    exact Or.inl rfl
  · have hy : y = a ∨ y = x := by
      have hmem : y ∈ [a, x] := h.subset (by simp)
      simpa using hmem
    rcases hy with hya | hyx
    · rw [hya]
      exact Or.inr rfl
    · rw [hyx] at h ⊢
      have hmem : a ∈ [x, x] := h.symm.subset (by simp)
      have hab : a = x := by simpa using hmem
      rw [hab]
      exact Or.inr rfl

/-- C5: the aggregator merges each bundle's frequency map into the global
map by `globalFreq[word] += count` (lookups after a merge are the old value
plus the merged counts for that word); a top-N report has exactly
`min(N, distinctWordCount)` entries sorted by descending count; over the
maps {"a":1,"b":2} and {"a":3} the global map is {"a":4,"b":2} and every
admissible top-1 report is [("a",4)]. -/
theorem aggregator_merges_and_reports_top :
    (∀ (g m : List (String × Int)) (w : String),
      lookupFreq (addFreq g m) w = lookupFreq g w + sumCounts m w) ∧
    (∀ (n : Nat) (g report : List (String × Int)),
      IsTopNReport n g report →
        report.length = min n g.length ∧
        report.Sorted (fun a b => b.2 ≤ a.2)) ∧
    (aggregate
      [⟨"f1", 1, [⟨"most_frequent_words", some (.freq [("a", 1), ("b", 2)])⟩]⟩,
       ⟨"f2", 1, [⟨"most_frequent_words", some (.freq [("a", 3)])⟩]⟩]).globalMap =
      [("a", 4), ("b", 2)] ∧
    (∀ report, IsTopNReport 1 [("a", 4), ("b", 2)] report →
      report = [("a", 4)]) := by
  refine ⟨lookupFreq_addFreq, ?_, by decide, ?_⟩
  · intro n g report h
    obtain ⟨words, hperm, hsort, rfl⟩ := h
    constructor
    · rw [List.length_take, hperm.length_eq]
      omega
    · exact hsort.sublist (List.take_sublist _ _)
  · intro report h
    obtain ⟨words, hperm, hsort, rfl⟩ := h
    rcases perm_pair hperm with rfl | rfl
    · rfl
    · exfalso
      have h42 : (4 : Int) ≤ 2 :=
        (List.pairwise_cons.mp hsort).1 ("a", 4) (by simp)
      omega

/-- Witness for C5: the top-N properties applied to a concrete admissible
report. -/
theorem aggregator_merges_and_reports_top_witness :
    ([("a", 4)] : List (String × Int)) = [("a", 4)] ∧
    ([("a", 4)] : List (String × Int)).length =
      min 1 ([("a", 4), ("b", 2)] : List (String × Int)).length := by
  refine ⟨aggregator_merges_and_reports_top.2.2.2 [("a", 4)]
    ⟨[("a", 4), ("b", 2)], List.Perm.refl _, by decide, by decide⟩, ?_⟩
  exact (aggregator_merges_and_reports_top.2.1 1 [("a", 4), ("b", 2)] [("a", 4)]
    ⟨[("a", 4), ("b", 2)], List.Perm.refl _, by decide, by decide⟩).1

/-! ## The worker pool: conservation and termination -/

theorem pendList_replicate_idle (w : Nat) :
    pendList (List.replicate w WPhase.idle) = [] := by
  apply List.filterMap_eq_nil_iff.mpr
  intro a ha
  rw [(List.mem_replicate.mp ha).2]
  rfl

theorem exited_mem_zip {l r : List WPhase} {x : WPhase}
    (hx : WPhase.exited ≠ x) (hmem : WPhase.exited ∈ l ++ x :: r) :
    ∀ y : WPhase, WPhase.exited ∈ l ++ y :: r := by
  intro y
  rcases List.mem_append.mp hmem with h | h
  · exact List.mem_append.mpr (Or.inl h)
  · rcases List.mem_cons.mp h with h' | h'
    · exact absurd h' hx
    · exact List.mem_append.mpr (Or.inr (List.mem_cons_of_mem _ h'))

theorem poolStep_inv {fs : FS} {as : List Analyzer} {files : List String}
    {s t : PoolState} (hst : PoolStep fs as s t)
    (hs : PoolInv fs as files s) : PoolInv fs as files t := by
  obtain ⟨hmeq, hexit⟩ := hs
  cases hst with
  | take p rest l r em =>
    refine ⟨?_, ?_⟩
    · rw [← hmeq]
      cases hp : processFile fs as p with
      | none =>
        simp [pendList, List.filterMap_append, List.filterMap_cons,
          pendingOf, hp]
      | some b =>
        simp only [pendList, List.filterMap_append, List.filterMap_cons,
          pendingOf, hp, ← Multiset.coe_add, ← Multiset.cons_coe,
          ← Multiset.singleton_add]
        abel
    · intro hmem
      exfalso
      have hmem' : WPhase.exited ∈ l ++ WPhase.idle :: r :=
        exited_mem_zip (by simp) hmem WPhase.idle
      exact List.cons_ne_nil p rest (hexit hmem')
  | push b q l r em =>
    refine ⟨?_, ?_⟩
    · rw [← hmeq]
      simp only [pendList, List.filterMap_append, List.filterMap_cons,
        pendingOf, ← Multiset.coe_add, ← Multiset.cons_coe,
        ← Multiset.singleton_add, Multiset.coe_nil, add_zero]
      abel
    · intro hmem
      exact hexit (exited_mem_zip (by simp) hmem (WPhase.busy (some b)))
  | skip q l r em =>
    refine ⟨?_, ?_⟩
    · rw [← hmeq]
      simp [pendList, List.filterMap_append, List.filterMap_cons, pendingOf]
    · intro hmem
      exact hexit (exited_mem_zip (by simp) hmem (WPhase.busy none))
  | exit l r em =>
    refine ⟨?_, ?_⟩
    · rw [← hmeq]
      simp [pendList, List.filterMap_append, List.filterMap_cons, pendingOf]
    · intro _
      rfl

theorem poolReaches_inv {fs : FS} {as : List Analyzer} {files : List String}
    {s t : PoolState} (h : PoolReaches fs as s t)
    (hs : PoolInv fs as files s) : PoolInv fs as files t := by
  induction h with
  | refl => exact hs
  | tail h1 h2 ih => exact poolStep_inv h2 ih

theorem poolInv_init (fs : FS) (as : List Analyzer) (files : List String)
    (w : Nat) : PoolInv fs as files (initPool files w) := by
  refine ⟨?_, ?_⟩
  · show ((([] : List FileAnalysisResult) : Multiset FileAnalysisResult) +
      ↑(pendList (List.replicate w WPhase.idle)) +
      ↑(files.filterMap (processFile fs as)) = _)
    rw [pendList_replicate_idle]
    simp
  · intro hmem
    have h := (List.mem_replicate.mp hmem).2
    exact absurd h (by simp)

theorem poolStep_workers_length {fs : FS} {as : List Analyzer}
    {s t : PoolState} (h : PoolStep fs as s t) :
    t.workers.length = s.workers.length := by
  cases h <;> simp

theorem poolReaches_workers_length {fs : FS} {as : List Analyzer}
    {s t : PoolState} (h : PoolReaches fs as s t) :
    t.workers.length = s.workers.length := by
  induction h with
  | refl => rfl
  | tail h1 h2 ih => rw [poolStep_workers_length h2, ih]

theorem poolReaches_emitted_perm {fs : FS} {as : List Analyzer}
    {files : List String} {w : Nat} {s : PoolState} (hw : 1 ≤ w)
    (h : PoolReaches fs as (initPool files w) s) (hall : AllExited s) :
    (s.emitted : Multiset FileAnalysisResult) =
      ↑(files.filterMap (processFile fs as)) := by
  obtain ⟨hmeq, hexit⟩ := poolReaches_inv h (poolInv_init fs as files w)
  have hpend : pendList s.workers = [] :=
    List.filterMap_eq_nil_iff.mpr (fun a ha => by rw [hall a ha]; rfl)
  have hlen : s.workers.length = w := by
    have hl := poolReaches_workers_length h
    simpa [initPool] using hl
  have hne : s.workers ≠ [] := by
    intro hnil
    rw [hnil] at hlen
    simp at hlen
    omega
  obtain ⟨ph, hph⟩ := List.exists_mem_of_ne_nil s.workers hne
  have hexmem : WPhase.exited ∈ s.workers := by
    rw [← hall ph hph]; exact hph
  have hq : s.queue = [] := hexit hexmem
  rw [hpend, hq] at hmeq
  simpa using hmeq

theorem poolReaches_emitted_subset {fs : FS} {as : List Analyzer}
    {files : List String} {w : Nat} {s : PoolState}
    (h : PoolReaches fs as (initPool files w) s) :
    ∀ b ∈ s.emitted, ∃ p ∈ files, processFile fs as p = some b := by
  have hinv := poolReaches_inv h (poolInv_init fs as files w)
  intro b hb
  have hle : (s.emitted : Multiset FileAnalysisResult) ≤
      ↑(files.filterMap (processFile fs as)) := by
    rw [← hinv.1, add_assoc]
    exact Multiset.le_add_right _ _
  have hbmem : b ∈ files.filterMap (processFile fs as) := by
    have hm : b ∈ (↑(files.filterMap (processFile fs as)) :
        Multiset FileAnalysisResult) :=
      Multiset.mem_of_le hle (by exact_mod_cast hb)
    exact_mod_cast hm
  simpa using List.mem_filterMap.mp hbmem

theorem poolReaches_exitAll (fs : FS) (as : List Analyzer) :
    ∀ (r l : List WPhase) (em : List FileAnalysisResult),
      (∀ x ∈ r, x = WPhase.idle) →
      PoolReaches fs as ⟨[], l ++ r, em⟩
        ⟨[], l ++ r.map (fun _ => WPhase.exited), em⟩ := by
  intro r
  induction r with
  | nil => intro l em _; exact Relation.ReflTransGen.refl
  | cons x r' ih =>
    intro l em hall
    have hx : x = WPhase.idle := hall x (List.mem_cons_self x r')
    subst hx
    refine Relation.ReflTransGen.head (PoolStep.exit l r' em) ?_
    have hrest := ih (l ++ [WPhase.exited]) em
      (fun y hy => hall y (List.mem_cons_of_mem _ hy))
    simpa [List.append_assoc] using hrest

theorem poolReaches_procAll (fs : FS) (as : List Analyzer) :
    ∀ (files : List String) (r : List WPhase) (em : List FileAnalysisResult),
      PoolReaches fs as ⟨files, WPhase.idle :: r, em⟩
        ⟨[], WPhase.idle :: r, em ++ analyzeSequentialGo fs as files⟩ := by
  intro files
  induction files with
  | nil =>
    intro r em
    simp only [analyzeSequentialGo, List.append_nil]
    exact Relation.ReflTransGen.refl
  | cons p rest ih =>
    intro r em
    have hstep : PoolStep fs as ⟨p :: rest, WPhase.idle :: r, em⟩
        ⟨rest, WPhase.busy (processFile fs as p) :: r, em⟩ :=
      PoolStep.take p rest [] r em
    cases hp : fs.read p with
    | none =>
      have hproc : processFile fs as p = none := by simp [processFile, hp]
      refine Relation.ReflTransGen.head hstep ?_
      rw [hproc]
      refine Relation.ReflTransGen.head (PoolStep.skip rest [] r em) ?_
      have hrest := ih r em
      simpa [analyzeSequentialGo, hp] using hrest
    | some cs =>
      obtain ⟨c, sz⟩ := cs
      have hproc : processFile fs as p =
          some ⟨goBaseName p, sz, analyzeOne c as⟩ := by
        simp [processFile, hp]
      refine Relation.ReflTransGen.head hstep ?_
      rw [hproc]
      refine Relation.ReflTransGen.head
        (PoolStep.push ⟨goBaseName p, sz, analyzeOne c as⟩ rest [] r em) ?_
      have hrest := ih r (em ++ [⟨goBaseName p, sz, analyzeOne c as⟩])
      simpa [analyzeSequentialGo, hp, List.append_assoc] using hrest

theorem poolReaches_terminal_exists (fs : FS) (as : List Analyzer)
    (files : List String) (w : Nat) (hw : 1 ≤ w) :
    ∃ s, PoolReaches fs as (initPool files w) s ∧ AllExited s ∧
      s.emitted = analyzeSequentialGo fs as files := by
  obtain ⟨w', rfl⟩ : ∃ w', w = w' + 1 := ⟨w - 1, by omega⟩
  have h1 : PoolReaches fs as (initPool files (w' + 1))
      ⟨[], WPhase.idle :: List.replicate w' WPhase.idle,
        analyzeSequentialGo fs as files⟩ := by
    have hp := poolReaches_procAll fs as files
      (List.replicate w' WPhase.idle) []
    simpa [initPool, List.replicate_succ] using hp
  have hall : ∀ x ∈ WPhase.idle :: List.replicate w' WPhase.idle,
      x = WPhase.idle := by
    intro x hx
    rcases List.mem_cons.mp hx with rfl | h
    · rfl
    · exact (List.mem_replicate.mp h).2
  have h2 := poolReaches_exitAll fs as
    (WPhase.idle :: List.replicate w' WPhase.idle) []
    (analyzeSequentialGo fs as files) hall
  refine ⟨⟨[], (WPhase.idle :: List.replicate w' WPhase.idle).map
      (fun _ => WPhase.exited), analyzeSequentialGo fs as files⟩,
    h1.trans (by simpa using h2), ?_, rfl⟩
  intro ph hph
  obtain ⟨x, _, hx⟩ := List.mem_map.mp hph
  exact hx.symm

/-- C1: for every filesystem, analyzer list, file list and worker count
≥ 1, `AnalyzeParallel` agrees with `AnalyzeSequential` up to order: every
terminated pool run has collected exactly the multiset of bundles that
`AnalyzeSequential` returns (each readable file processed exactly once, no
bundle duplicated or dropped), and a terminated run exists. -/
theorem analyzeParallel_matches_sequential_multiset (fs : FS)
    (as : List Analyzer) (files : List String) (w : Nat) (hw : 1 ≤ w) :
    (∀ s, PoolReaches fs as (initPool files w) s → AllExited s →
      ((analyzeParallelReturn s).1 : Multiset FileAnalysisResult) =
        ↑(AnalyzeSequential fs files as).1) ∧
    (∃ s, PoolReaches fs as (initPool files w) s ∧ AllExited s) := by
  constructor
  · intro s hreach hall
    show (s.emitted : Multiset FileAnalysisResult) =
      ↑(analyzeSequentialGo fs as files)
    rw [poolReaches_emitted_perm hw hreach hall,
      analyzeSequentialGo_eq_filterMap]
  · obtain ⟨s, hr, he, _⟩ := poolReaches_terminal_exists fs as files w hw
    exact ⟨s, hr, he⟩

/-- Witness for C1 at a concrete pool: one worker, one file. -/
theorem analyzeParallel_matches_sequential_multiset_witness :
    (1 ≤ 1) ∧
    ∃ s, PoolReaches ⟨fun _ => some ("hello", 5)⟩ [wordCountAnalyzer]
      (initPool ["a.txt"] 1) s ∧ AllExited s :=
  ⟨le_refl 1,
    (analyzeParallel_matches_sequential_multiset
      ⟨fun _ => some ("hello", 5)⟩ [wordCountAnalyzer] ["a.txt"] 1
      (le_refl 1)).2⟩

/-! ## Fixed-slot writes of the analysis engine -/

theorem foldl_writeSlot_length (as : List Analyzer) (content : String) :
    ∀ (order : List Nat) (arr : List AnalysisResult),
      (order.foldl (writeSlot as content) arr).length = arr.length := by
  intro order
  induction order with
  | nil => intro arr; rfl
  | cons i rest ih =>
    intro arr
    rw [List.foldl_cons, ih]
    unfold writeSlot
    cases as[i]? <;> simp

theorem foldl_writeSlot_getElem_not_mem (as : List Analyzer)
    (content : String) :
    ∀ (order : List Nat) (arr : List AnalysisResult) (j : Nat), j ∉ order →
      (order.foldl (writeSlot as content) arr)[j]? = arr[j]? := by
  intro order
  induction order with
  | nil => intro arr j _; rfl
  | cons i rest ih =>
    intro arr j hj
    have hji : j ≠ i := fun h => hj (h ▸ List.mem_cons_self i rest)
    have hjr : j ∉ rest := fun h => hj (List.mem_cons_of_mem _ h)
    rw [List.foldl_cons, ih _ j hjr]
    unfold writeSlot
    cases as[i]? with
    | none => rfl
    | some a => exact List.getElem?_set_ne hji.symm

theorem foldl_writeSlot_getElem_mem (as : List Analyzer) (content : String) :
    ∀ (order : List Nat), order.Nodup →
      ∀ (arr : List AnalysisResult), arr.length = as.length →
      ∀ (j : Nat) (a : Analyzer), j ∈ order → as[j]? = some a →
      (order.foldl (writeSlot as content) arr)[j]? =
        some (a.analyze content) := by
  intro order
  induction order with
  | nil => intro _ arr _ j a hj _; cases hj
  | cons i rest ih =>
    intro hnd arr harr j a hj ha
    rw [List.foldl_cons]
    rcases List.mem_cons.mp hj with rfl | hjr
    · have hni : j ∉ rest := (List.nodup_cons.mp hnd).1
      rw [foldl_writeSlot_getElem_not_mem as content rest _ j hni]
      unfold writeSlot
      rw [ha]
      have hjlt : j < arr.length := by
        rw [harr]
        exact (List.getElem?_eq_some.mp ha).1
      rw [List.getElem?_set_self]
      exact hjlt
    · refine ih (List.nodup_cons.mp hnd).2 _ ?_ j a hjr ha
      unfold writeSlot
      cases as[i]? <;> simp [harr]

theorem runAnalyzerTasks_eq_analyzeOne (as : List Analyzer)
    (content : String) (order : List Nat)
    (h : order.Perm (List.range as.length)) :
    runAnalyzerTasks as content order = analyzeOne content as := by
  have hnd : order.Nodup := (h.nodup_iff).mpr (List.nodup_range _)
  apply List.ext_getElem?
  intro j
  by_cases hj : j < as.length
  · have hmem : j ∈ order := h.mem_iff.mpr (List.mem_range.mpr hj)
    have ha : as[j]? = some as[j] := List.getElem?_eq_getElem hj
    show (order.foldl (writeSlot as content)
      (List.replicate as.length zeroResult))[j]? = _
    rw [foldl_writeSlot_getElem_mem as content order hnd _ (by simp) j _
      hmem ha]
    simp [analyzeOne, List.getElem?_eq_getElem hj]
  · have h1 : (runAnalyzerTasks as content order)[j]? = none := by
      apply List.getElem?_eq_none
      show (order.foldl (writeSlot as content)
        (List.replicate as.length zeroResult)).length ≤ j
      rw [foldl_writeSlot_length]
      simp only [List.length_replicate]
      omega
    have h2 : (analyzeOne content as)[j]? = none := by
      apply List.getElem?_eq_none
      simp only [analyzeOne, List.length_map]
      omega
    rw [h1, h2]

/-- C2: the engine writes each analyzer's output into a fixed slot, so for
any completion order of the concurrent per-analyzer tasks the joined bundle
carries exactly one `AnalysisResult` per configured analyzer, at that
analyzer's index in the input list; and every bundle a pool run ever emits
has exactly this shape — no partial bundle is emitted. -/
theorem engine_results_positional (content : String) (as : List Analyzer) :
    (∀ order : List Nat, order.Perm (List.range as.length) →
      runAnalyzerTasks as content order = analyzeOne content as) ∧
    ((analyzeOne content as).length = as.length ∧
      ∀ (j : Nat) (hj : j < as.length),
        (analyzeOne content as)[j]? =
          some ((as.get ⟨j, hj⟩).analyze content)) ∧
    (∀ (fs : FS) (files : List String) (w : Nat) (s : PoolState),
      PoolReaches fs as (initPool files w) s →
      ∀ b ∈ s.emitted, b.results.length = as.length ∧
        ∃ c : String, b.results = analyzeOne c as) := by
  refine ⟨runAnalyzerTasks_eq_analyzeOne as content,
    ⟨by simp [analyzeOne], ?_⟩, ?_⟩
  · intro j hj
    simp [analyzeOne, List.getElem?_eq_getElem hj]
  · intro fs files w s hreach b hb
    obtain ⟨p, hp, hproc⟩ := poolReaches_emitted_subset hreach b hb
    unfold processFile at hproc
    cases hread : fs.read p with
    | none => rw [hread] at hproc; cases hproc
    | some cs =>
      obtain ⟨c, sz⟩ := cs
      rw [hread] at hproc
      obtain rfl : b = ⟨goBaseName p, sz, analyzeOne c as⟩ :=
        (Option.some.inj hproc).symm
      exact ⟨by simp [analyzeOne], c, rfl⟩

/-- Witness for C2: the three analyzers of `main` joined under the
completion order 2, 0, 1 still give the in-order bundle. -/
theorem engine_results_positional_witness :
    runAnalyzerTasks
      [wordCountAnalyzer, lineCountAnalyzer, mostFrequentWordsAnalyzer]
      "hi there" [2, 0, 1] =
    analyzeOne "hi there"
      [wordCountAnalyzer, lineCountAnalyzer, mostFrequentWordsAnalyzer] :=
  (engine_results_positional "hi there"
    [wordCountAnalyzer, lineCountAnalyzer, mostFrequentWordsAnalyzer]).1
    [2, 0, 1] (by decide)

/-! ## Cancellation in the interactive worker -/

/-- C3 counterexample: in the worker of `main`, with the signal already
fired and a result push in flight, a step exists, and every available step
completes the push and returns to the pull point — the worker can neither
exit without pushing nor observe cancellation at the push, because the
`results <-` send is not wrapped in a `select` on `ctx.Done()`. -/
theorem worker_push_not_cancellable_counterexample :
    (∃ t, CtxWorkerStep ⟨fun _ => none⟩ []
      ⟨true, [], true, CtxPhase.pushing ⟨"x.txt", 2, []⟩, []⟩ t) ∧
    (∀ t, CtxWorkerStep ⟨fun _ => none⟩ []
      ⟨true, [], true, CtxPhase.pushing ⟨"x.txt", 2, []⟩, []⟩ t →
      t.emitted = [⟨"x.txt", 2, []⟩] ∧ t.phase = CtxPhase.pull) := by
  constructor
  · exact ⟨_, CtxWorkerStep.pushResult true ⟨"x.txt", 2, []⟩ [] true []⟩
  · intro t h
    cases h with
    | pushResult => exact ⟨rfl, rfl⟩

/-- C3 (amended): cancellation is checked when a worker pulls the next path
— a cancelled worker at the pull boundary can exit without pulling — and an
analysis already dispatched runs to completion; but the result push is not
a cancellation point: after the signal has fired, the only step from an
in-flight push completes it, and a worker mid-analysis never exits. -/
theorem worker_cancellation_at_pull_only :
    (∀ (fs : FS) (as : List Analyzer) (q : List String) (cl : Bool)
      (em : List FileAnalysisResult),
      CtxWorkerStep fs as ⟨true, q, cl, CtxPhase.pull, em⟩
        ⟨true, q, cl, CtxPhase.exited, em⟩) ∧
    (∀ (fs : FS) (as : List Analyzer) (q : List String) (cl : Bool)
      (em : List FileAnalysisResult) (b : FileAnalysisResult) t,
      CtxWorkerStep fs as ⟨true, q, cl, CtxPhase.pushing b, em⟩ t →
      t = ⟨true, q, cl, CtxPhase.pull, em ++ [b]⟩) ∧
    (∀ (fs : FS) (as : List Analyzer) (q : List String) (cl : Bool)
      (em : List FileAnalysisResult) (p : String) t,
      CtxWorkerStep fs as ⟨true, q, cl, CtxPhase.reading p, em⟩ t →
      t.phase ≠ CtxPhase.exited ∧ t.emitted = em) := by
  refine ⟨fun fs as q cl em => CtxWorkerStep.cancelAtPull true q cl em,
    fun fs as q cl em b t h => ?_, fun fs as q cl em p t h => ?_⟩
  · cases h with
    | pushResult => rfl
  · cases h with
    | readFail _ _ _ _ _ hread => exact ⟨by simp, rfl⟩
    | readOk _ _ _ _ _ content size hread => exact ⟨by simp, rfl⟩

/-- Witness for C3 (amended) at a concrete worker state. -/
theorem worker_cancellation_at_pull_only_witness :
    CtxWorkerStep ⟨fun _ => none⟩ []
      ⟨true, ["a.txt"], false, CtxPhase.pull, []⟩
      ⟨true, ["a.txt"], false, CtxPhase.exited, []⟩ ∧
    (⟨true, [], true, CtxPhase.pull,
        [] ++ [⟨"x.txt", 2, []⟩]⟩ : CtxWorkerState) =
      ⟨true, [], true, CtxPhase.pull, [] ++ [⟨"x.txt", 2, []⟩]⟩ :=
  ⟨worker_cancellation_at_pull_only.1 ⟨fun _ => none⟩ [] ["a.txt"] false [],
    worker_cancellation_at_pull_only.2.1 ⟨fun _ => none⟩ [] [] true []
      ⟨"x.txt", 2, []⟩ _
      (CtxWorkerStep.pushResult true ⟨"x.txt", 2, []⟩ [] true [])⟩

end FileAnalysis
